import Mathlib

/-!
Verification of the cohort-threshold engine and cohort normalizer of the
solhacks repository (`outcome_thresholds.py`, `outcome_data_processing.py`).

Embedding conventions:
* Python floats are modelled as exact rationals (`ℚ`).
* A dynamically-typed Python value that may or may not coerce to a float via
  `float(...)` (resp. `pd.to_numeric(..., errors="coerce")`) is modelled by
  `PyVal`: a numeric value, a string that parses as a number, or a string that
  does not.  `pyFloat` is the coercion.
* A Python dict is modelled as a function into `Option` (`Dict`); assignment
  is `Dict.insert`.
* An applicant record (a Python dict of fields) is an association list from
  field name to `PyVal`; `app[field]` is `List.lookup`, whose `none` case is
  Python's `KeyError`.
* Exceptions are modelled with `Except EngineError`; the three raise sites of
  `calculate_approvals` become the three constructors of `EngineError`,
  each carrying exactly the data interpolated into the Python message
  (the out-of-range rate, the missing field name, the offending group name).
* `np.percentile` with the default linear-interpolation method is
  `percentile`: sort, take `h = (n-1)*p/100`, and interpolate linearly
  between the order statistics at `⌊h⌋` and `⌊h⌋+1` (clamped to `n-1`).
-/

/-- A dynamically typed Python value, as far as `float(...)` coercion is
concerned: a number, a string holding a number, or a non-numeric string. -/
inductive PyVal where
  | num (q : ℚ)
  | strNum (s : String) (q : ℚ)
  | strBad (s : String)
deriving DecidableEq

/-- Python `float(v)`: `some` the numeric value if the coercion succeeds,
`none` if it raises `TypeError`/`ValueError`. -/
def pyFloat : PyVal → Option ℚ
  | .num q => some q
  | .strNum _ q => some q
  | .strBad _ => none

/-- A Python dict, as a partial map. -/
def Dict (α β : Type) : Type := α → Option β

/-- The empty dict `{}`. -/
def Dict.empty {α β : Type} : Dict α β := fun _ => none

/-- Python dict assignment `d[k] = v`. -/
def Dict.insert {α β : Type} [DecidableEq α] (d : Dict α β) (k : α) (v : β) :
    Dict α β := fun x => if x = k then some v else d x

/-- An applicant record: a Python dict of fields. -/
def Applicant : Type := List (String × PyVal)

instance : DecidableEq Applicant :=
  inferInstanceAs (DecidableEq (List (String × PyVal)))

/-- Field access `app[f]`; `none` is Python's `KeyError`. -/
def Applicant.field (a : Applicant) (f : String) : Option PyVal :=
  List.lookup f a

/-- The float value of a field of an applicant, when the field exists and
coerces; `float(app[f])` in the source. -/
def Applicant.ratioVal (a : Applicant) (f : String) : Option ℚ :=
  (a.field f).bind pyFloat

/-- The float value of a field, defaulted to `0` (only used to state results
about runs in which the coercion is known to succeed). -/
def Applicant.ratioD (a : Applicant) (f : String) : ℚ :=
  (a.ratioVal f).getD 0

/-- A decision string, `"approved"` or `"denied"`. -/
inductive Decision where
  | approved
  | denied
deriving DecidableEq

/-- A per-group threshold: `float('-inf')` for an empty group, otherwise the
percentile value. -/
inductive Thresh where
  | negInf
  | val (q : ℚ)
deriving DecidableEq

/-- The exceptions `calculate_approvals` can raise, carrying the data its
messages interpolate: the bad rate, the missing field name (`KeyError`
re-raise, which names no group), or the offending group (`ValueError`
re-raise). -/
inductive EngineError where
  | configError (rate : ℚ)
  | missingField (f : String)
  | invalidRatio (group : String)
deriving DecidableEq

/-- Linear interpolation at fractional index `h` into the sorted list `s`:
`s[i] + (h - i) * (s[i+1] - s[i])` with `i = ⌊h⌋` and the upper index clamped
to the last position, exactly numpy's default (linear) percentile kernel. -/
def interpAt (s : List ℚ) (h : ℚ) : ℚ :=
  let n := s.length
  let i : ℕ := min (⌊h⌋.toNat) (n - 1)
  let lo := s.getD i 0
  let hi := s.getD (min (i + 1) (n - 1)) 0
  lo + (h - (i : ℚ)) * (hi - lo)

/-- `np.percentile(values, p)` with the default linear interpolation method.
The ascending sort of `np.sort` is realized by insertion sort, which produces
the same list: a weakly sorted permutation of a list of rationals is unique. -/
def percentile (values : List ℚ) (p : ℚ) : ℚ :=
  interpAt (List.insertionSort (· ≤ ·) values)
    (((values.length : ℚ) - 1) * p / 100)

/-- The list comprehension
`[float(app[ratio_field]) for app in applicants]`, evaluated left to right,
raising at the first missing field (`KeyError`, no group in the message) or
failed coercion (`ValueError`, re-raised with the group name). -/
def getRatios (group rf : String) : List Applicant → Except EngineError (List ℚ)
  | [] => .ok []
  | a :: rest =>
    match a.field rf with
    | none => .error (.missingField rf)
    | some v =>
      match pyFloat v with
      | none => .error (.invalidRatio group)
      | some q =>
        match getRatios group rf rest with
        | .error e => .error e
        | .ok qs => .ok (q :: qs)

/-- The decisions loop of `calculate_approvals`:
`decisions[app[id_field]] = "approved" if float(app[ratio_field]) <= threshold
else "denied"` for each applicant of the group, in order. -/
def decideLoop (group rf idf : String) (thr : ℚ) :
    List Applicant → Dict PyVal Decision → Except EngineError (Dict PyVal Decision)
  | [], d => .ok d
  | a :: rest, d =>
    match a.field rf with
    | none => .error (.missingField rf)
    | some v =>
      match pyFloat v with
      | none => .error (.invalidRatio group)
      | some q =>
        match a.field idf with
        | none => .error (.missingField idf)
        | some idv =>
          decideLoop group rf idf thr rest
            (d.insert idv (if q ≤ thr then .approved else .denied))

/-- The per-group loop of `calculate_approvals`: empty groups get threshold
`-inf` and no decisions; non-empty groups get the percentile threshold and a
decision per member. -/
def engineLoop (r : ℚ) (rf idf : String) :
    List (String × List Applicant) → Dict PyVal Decision → Dict String Thresh →
    Except EngineError (Dict PyVal Decision × Dict String Thresh)
  | [], d, t => .ok (d, t)
  | (g, apps) :: rest, d, t =>
    match apps with
    | [] => engineLoop r rf idf rest d (t.insert g .negInf)
    | _ :: _ =>
      match getRatios g rf apps with
      | .error e => .error e
      | .ok qs =>
        let thr := percentile qs (100 * r)
        let t2 := t.insert g (.val thr)
        match decideLoop g rf idf thr apps d with
        | .error e => .error e
        | .ok d2 => engineLoop r rf idf rest d2 t2

/-- `calculate_approvals(grouped_applicants, approval_rate, ratio_field,
id_field)` from `outcome_thresholds.py`.  The grouped applicants are given as
an association list (group name, members) in dict iteration order. -/
def calculate_approvals (gs : List (String × List Applicant)) (r : ℚ)
    (rf idf : String) :
    Except EngineError (Dict PyVal Decision × Dict String Thresh) :=
  if 0 ≤ r ∧ r ≤ 1 then
    engineLoop r rf idf gs Dict.empty Dict.empty
  else
    .error (.configError r)

/-- Whether `calculate_approvals` returns normally (no exception). -/
def runOk (gs : List (String × List Applicant)) (r : ℚ) (rf idf : String) :
    Bool :=
  match calculate_approvals gs r rf idf with
  | .ok _ => true
  | .error _ => false

/-- The error raised by `calculate_approvals`, if any. -/
def runErr (gs : List (String × List Applicant)) (r : ℚ) (rf idf : String) :
    Option EngineError :=
  match calculate_approvals gs r rf idf with
  | .ok _ => none
  | .error e => some e

/-- The decision `calculate_approvals` returns for id `x` (`none` when the
run raised, or when no member has that id). -/
def decisionOf (gs : List (String × List Applicant)) (r : ℚ) (rf idf : String)
    (x : PyVal) : Option Decision :=
  match calculate_approvals gs r rf idf with
  | .ok (d, _) => d x
  | .error _ => none

/-- The threshold `calculate_approvals` returns for group `g` (`none` when
the run raised, or when no group has that name). -/
def thresholdOf (gs : List (String × List Applicant)) (r : ℚ) (rf idf : String)
    (g : String) : Option Thresh :=
  match calculate_approvals gs r rf idf with
  | .ok (_, t) => t g
  | .error _ => none

/-- The "White Male" cohort of the spec's example scenario: risk ratios
10, 20, 30, 40 with ids 1 to 4. -/
def wmApps : List Applicant :=
  [[("id", .num 1), ("debt_to_income_ratio", .num 10)],
   [("id", .num 2), ("debt_to_income_ratio", .num 20)],
   [("id", .num 3), ("debt_to_income_ratio", .num 30)],
   [("id", .num 4), ("debt_to_income_ratio", .num 40)]]

/-- The grouped form of the example scenario. -/
def wmGrouped : List (String × List Applicant) := [("White Male", wmApps)]

/-- The ids of all members of all cohorts, in processing order (used to state
uniqueness of ids across the partition). -/
def allIds (gs : List (String × List Applicant)) (idf : String) : List PyVal :=
  gs.flatMap (fun p => p.2.filterMap (fun a => a.field idf))

/-- A raw input row of `get_grouped_applicants`, one record of the CSV after
the schema check: the three demographic columns and the risk column (whose
value may or may not be numeric; `pd.to_numeric(..., errors="coerce")` is the
same coercion as `float`, modelled by `pyFloat`). -/
structure Row where
  derived_ethnicity : String
  derived_race : String
  derived_sex : String
  debt_to_income_ratio : PyVal
deriving DecidableEq

/-- Python `str.lower()`, character by character. -/
def pyLower (s : String) : String := ⟨s.data.map Char.toLower⟩

/-- Python `str.strip()`: leading and trailing whitespace removed. -/
def pyStrip (s : String) : String :=
  ⟨((s.data.dropWhile Char.isWhitespace).reverse.dropWhile
      Char.isWhitespace).reverse⟩

/-- Step 4 of `get_grouped_applicants`: the ethnicity is converted to string,
lower-cased and stripped (`astype(str).str.lower().str.strip()`). -/
def normEth (e : String) : String := pyStrip (pyLower e)

/-- Step 5: the race is overridden with the literal `"Hispanic"` exactly when
the normalized ethnicity equals `"hispanic or latino"`. -/
def overrideRace (eth race : String) : String :=
  if normEth eth = "hispanic or latino" then "Hispanic" else race

/-- Python `str.title()`: the first alphabetic character of every maximal
alphabetic run is upper-cased, the rest are lower-cased. The boolean carries
whether the previous character was alphabetic. -/
def titleAux : Bool → List Char → List Char
  | _, [] => []
  | prevAlpha, c :: cs =>
    if c.isAlpha then
      (if prevAlpha then c.toLower else c.toUpper) :: titleAux true cs
    else
      c :: titleAux false cs

/-- Python `str.title()` on a string. -/
def pyTitle (s : String) : String := ⟨titleAux false s.data⟩

/-- Step 6 applied after the override: the cohort race of a row. -/
def cohortRace (r : Row) : String :=
  pyTitle (overrideRace r.derived_ethnicity r.derived_race)

/-- Step 6: the cohort sex of a row. -/
def cohortSex (r : Row) : String := pyTitle r.derived_sex

/-- Step 9: the `group` column, race and sex joined by a single space. -/
def groupKey (r : Row) : String := cohortRace r ++ " " ++ cohortSex r

/-- A processed applicant record as it appears in the output of
`get_grouped_applicants`: the synthesized id, the normalized columns, a
numeric risk ratio, and the `group` column. -/
structure PRow where
  id : ℕ
  derived_ethnicity : String
  derived_race : String
  derived_sex : String
  debt_to_income_ratio : ℚ
  group : String
deriving DecidableEq

/-- Step 7 for an input without an `id` column:
`df.insert(0, 'id', range(1, len(df) + 1))` pairs every row with the id
`n`, `n+1`, ... in the original row order, before any row is dropped. -/
def withIds : ℕ → List Row → List (ℕ × Row)
  | _, [] => []
  | n, r :: rest => (n, r) :: withIds (n + 1) rest

/-- The row-wise part of `get_grouped_applicants` for a row already carrying
its id: normalization of the three columns, the Hispanic override, and the
`to_numeric`/`dropna` filter (`none` exactly when the row is dropped for a
non-coercible risk value). -/
def processRow (idv : ℕ) (r : Row) : Option PRow :=
  match pyFloat r.debt_to_income_ratio with
  | none => none
  | some q =>
    some ⟨idv, normEth r.derived_ethnicity, cohortRace r, cohortSex r, q,
      groupKey r⟩

/-- `get_grouped_applicants` from `outcome_data_processing.py`, for an input
table without an `id` column: synthesize ids 1..N in row order, process the
rows, drop the non-numeric ones (after the ids are assigned, so a dropped
row leaves a gap), and group by the `group` column (`df.groupby` iterates
the distinct keys in sorted order, each with its members in original row
order). -/
def get_grouped_applicants (rows : List Row) : List (String × List PRow) :=
  let ps := (withIds 1 rows).filterMap (fun p => processRow p.1 p.2)
  let keys := (ps.map (fun p => p.group)).dedup
  let skeys := List.insertionSort (· ≤ ·) keys
  skeys.map (fun k => (k, ps.filter (fun p => decide (p.group = k))))

/-- The number of rows dropped by the `to_numeric`/`dropna` step. -/
def droppedCount (rows : List Row) : ℕ :=
  rows.countP (fun r => (pyFloat r.debt_to_income_ratio).isNone)

/-- The decisions the example run at rate 1/2 produces. -/
def wmD : Dict PyVal Decision :=
  ((((Dict.empty.insert (.num 1) .approved).insert
    (.num 2) .approved).insert (.num 3) .denied).insert (.num 4) .denied)

/-- The thresholds the example run at rate 1/2 produces. -/
def wmT : Dict String Thresh := Dict.empty.insert "White Male" (.val 25)

/-- The decisions the example run at rate 1/4 produces. -/
def wmDq : Dict PyVal Decision :=
  ((((Dict.empty.insert (.num 1) .approved).insert
    (.num 2) .denied).insert (.num 3) .denied).insert (.num 4) .denied)

/-- The thresholds the example run at rate 1/4 produces. -/
def wmTq : Dict String Thresh := Dict.empty.insert "White Male" (.val (35/2))

/-- The example partition extended with an empty cohort. -/
def gs5 : List (String × List Applicant) :=
  [("Asian Female", []), ("White Male", wmApps)]

/-- The thresholds of the run over `gs5`: `-inf` for the empty cohort. -/
def t5 : Dict String Thresh :=
  (Dict.empty.insert "Asian Female" .negInf).insert "White Male" (.val 25)

/-- A partition whose single member lacks the risk field. -/
def gsMissing : List (String × List Applicant) :=
  [("G", [[("id", .num 1)]])]

/-- A partition whose single member has a non-coercible risk value. -/
def gsBadVal : List (String × List Applicant) :=
  [("G", [[("id", .num 1), ("debt_to_income_ratio", .strBad "n/a")]])]

/-- A row whose ethnicity matches `"hispanic or latino"` after lower-casing
and trimming. -/
def rowH : Row := ⟨" Hispanic or Latino ", "White", "MALE", .num 10⟩

/-- A row whose ethnicity merely contains the word (substring, no match). -/
def rowHk : Row := ⟨"Hispanicky", "White", "Male", .num 10⟩

/-- Two rows equal up to surface case differences in race and sex. -/
def rowA : Row := ⟨"not provided", "WHITE", "male", .num 1⟩

/-- The second row of the pair: same cohort as `rowA` after normalization. -/
def rowB : Row := ⟨"none given", "white", "MALE", .num 2⟩

/-- A row dropped by the `to_numeric` step. -/
def rowDropped : Row := ⟨"x", "White", "Male", .strBad "abc"⟩

set_option maxRecDepth 100000 in
/-- Ratio extraction on the example cohort. -/
lemma wmRatios : getRatios "White Male" "debt_to_income_ratio" wmApps =
    .ok [10, 20, 30, 40] := by
  simp [wmApps, getRatios, Applicant.field, List.lookup, pyFloat]

/-- The median-style percentile of the example ratios. -/
lemma wmPct : percentile [10, 20, 30, 40] (100 * (1/2)) = 25 := by
  norm_num [percentile, interpAt, List.insertionSort, List.orderedInsert]

/-- The quartile percentile of the example ratios. -/
lemma wmPctQ : percentile [10, 20, 30, 40] (100 * (1/4)) = 35/2 := by
  norm_num [percentile, interpAt, List.insertionSort, List.orderedInsert]

set_option maxRecDepth 100000 in
/-- The decisions loop on the example cohort at threshold 25. -/
lemma wmDecide : decideLoop "White Male" "debt_to_income_ratio" "id" 25
    wmApps Dict.empty = .ok wmD := by
  rw [wmD]
  simp [wmApps, decideLoop, Applicant.field, List.lookup, pyFloat]
  norm_num

set_option maxRecDepth 100000 in
/-- The decisions loop on the example cohort at threshold 35/2. -/
lemma wmDecideQ : decideLoop "White Male" "debt_to_income_ratio" "id" (35/2)
    wmApps Dict.empty = .ok wmDq := by
  rw [wmDq]
  simp [wmApps, decideLoop, Applicant.field, List.lookup, pyFloat]
  norm_num

/-- The example run at rate 1/2. -/
lemma wmRun : calculate_approvals wmGrouped (1/2) "debt_to_income_ratio"
    "id" = .ok (wmD, wmT) := by
  rw [calculate_approvals, if_pos (by norm_num)]
  rw [wmGrouped]
  simp only [engineLoop]
  rw [wmRatios]
  simp only [wmPct, wmDecide]
  rfl

/-- The example run at rate 1/4. -/
lemma wmRunQ : calculate_approvals wmGrouped (1/4) "debt_to_income_ratio"
    "id" = .ok (wmDq, wmTq) := by
  rw [calculate_approvals, if_pos (by norm_num)]
  rw [wmGrouped]
  simp only [engineLoop]
  rw [wmRatios]
  simp only [wmPctQ, wmDecideQ]
  rfl

/-- The run over the partition with an empty cohort, at rate 1/2. -/
lemma run5 : calculate_approvals gs5 (1/2) "debt_to_income_ratio" "id" =
    .ok (wmD, t5) := by
  rw [calculate_approvals, if_pos (by norm_num)]
  rw [gs5]
  simp only [engineLoop]
  rw [wmRatios]
  simp only [wmPct, wmDecide]
  rfl

set_option maxRecDepth 100000 in
/-- C1: on the cohort with risk ratios [10, 20, 30, 40] and target rate 1/2,
`calculate_approvals` returns threshold 25 for the cohort, approves the
members with ratios 10 and 20 (ids 1 and 2), denies those with 30 and 40
(ids 3 and 4), and the realized approval rate is exactly 1/2. -/
theorem claim_C1_example_scenario :
    runOk wmGrouped (1/2) "debt_to_income_ratio" "id" = true ∧
    thresholdOf wmGrouped (1/2) "debt_to_income_ratio" "id" "White Male" =
      some (.val 25) ∧
    decisionOf wmGrouped (1/2) "debt_to_income_ratio" "id" (.num 1) =
      some .approved ∧
    decisionOf wmGrouped (1/2) "debt_to_income_ratio" "id" (.num 2) =
      some .approved ∧
    decisionOf wmGrouped (1/2) "debt_to_income_ratio" "id" (.num 3) =
      some .denied ∧
    decisionOf wmGrouped (1/2) "debt_to_income_ratio" "id" (.num 4) =
      some .denied ∧
    ((wmApps.countP fun a =>
        decide (a.ratioD "debt_to_income_ratio" ≤ 25) : ℚ)) /
      (wmApps.length : ℚ) = 1/2 := by
  refine ⟨?_, ?_, ?_, ?_, ?_, ?_, ?_⟩
  · simp only [runOk, wmRun]
  · simp only [thresholdOf, wmRun]
    norm_num [wmT, Dict.insert]
  · simp only [decisionOf, wmRun]
    norm_num [wmD, Dict.insert, Dict.empty]
  · simp only [decisionOf, wmRun]
    norm_num [wmD, Dict.insert, Dict.empty]
  · simp only [decisionOf, wmRun]
    norm_num [wmD, Dict.insert, Dict.empty]
  · simp only [decisionOf, wmRun]
    norm_num [wmD, Dict.insert, Dict.empty]
  · simp [wmApps, Applicant.ratioD, Applicant.ratioVal, Applicant.field,
      List.lookup, pyFloat, List.countP, List.countP.go]
    norm_num

/-- In a weakly sorted list, the element at a smaller index is at most the
element at a larger (in-bounds) index. -/
lemma sorted_getD_mono {s : List ℚ} (hs : s.Sorted (· ≤ ·)) {i j : ℕ}
    (hij : i ≤ j) (hj : j < s.length) : s.getD i 0 ≤ s.getD j 0 := by
  have hi : i < s.length := lt_of_le_of_lt hij hj
  rw [List.getD_eq_getElem s 0 hi, List.getD_eq_getElem s 0 hj]
  have := hs.rel_get_of_le (a := ⟨i, hi⟩) (b := ⟨j, hj⟩) hij
  simpa using this

/-- Index bookkeeping for `interpAt`: for `0 ≤ h ≤ n - 1` the clamped index
is just `⌊h⌋.toNat`, it undercounts `h` by less than one, and it stays below
the last position. -/
lemma floor_idx_facts {n : ℕ} (hn : 1 ≤ n) {h : ℚ} (h0 : 0 ≤ h)
    (hub : h ≤ (n : ℚ) - 1) :
    (⌊h⌋.toNat : ℚ) ≤ h ∧ h - (⌊h⌋.toNat : ℚ) < 1 ∧ ⌊h⌋.toNat ≤ n - 1 := by
  have hfl0 : 0 ≤ ⌊h⌋ := Int.floor_nonneg.mpr h0
  have hcast : ((⌊h⌋.toNat : ℤ) : ℚ) = ((⌊h⌋ : ℤ) : ℚ) := by
    rw [Int.toNat_of_nonneg hfl0]
  have hfle : ((⌊h⌋ : ℤ) : ℚ) ≤ h := Int.floor_le h
  have hlt : h < ((⌊h⌋ : ℤ) : ℚ) + 1 := Int.lt_floor_add_one h
  refine ⟨by push_cast at hcast ⊢; linarith, by push_cast at hcast ⊢; linarith, ?_⟩
  have h1 : ⌊h⌋ ≤ (n : ℤ) - 1 := by
    have : h ≤ (((n : ℤ) - 1 : ℤ) : ℚ) := by push_cast; linarith
    have := Int.floor_le_floor this
    simpa using this
  omega

/-- Monotonicity of linear interpolation into a sorted list: `interpAt` is
non-decreasing in the fractional index over `[0, n-1]`. -/
lemma interpAt_mono {s : List ℚ} (hs : s.Sorted (· ≤ ·)) (hne : s ≠ [])
    {h1 h2 : ℚ} (h10 : 0 ≤ h1) (h12 : h1 ≤ h2)
    (h2ub : h2 ≤ (s.length : ℚ) - 1) :
    interpAt s h1 ≤ interpAt s h2 := by
  have hn : 1 ≤ s.length := List.length_pos.mpr hne
  have h20 : 0 ≤ h2 := le_trans h10 h12
  have h1ub : h1 ≤ (s.length : ℚ) - 1 := le_trans h12 h2ub
  obtain ⟨f1le, f1lt, f1ub⟩ := floor_idx_facts hn h10 h1ub
  obtain ⟨f2le, f2lt, f2ub⟩ := floor_idx_facts hn h20 h2ub
  have hmin1 : min (⌊h1⌋.toNat) (s.length - 1) = ⌊h1⌋.toNat := min_eq_left f1ub
  have hmin2 : min (⌊h2⌋.toNat) (s.length - 1) = ⌊h2⌋.toNat := min_eq_left f2ub
  have hii : ⌊h1⌋.toNat ≤ ⌊h2⌋.toNat := by
    have := Int.floor_le_floor h12
    have h0 : 0 ≤ ⌊h1⌋ := Int.floor_nonneg.mpr h10
    omega
  have hlast : s.length - 1 < s.length := by omega
  simp only [interpAt, hmin1, hmin2]
  rcases eq_or_lt_of_le hii with heq | hlt
  · rw [heq]
    have hlo : s.getD (⌊h2⌋.toNat) 0 ≤
        s.getD (min (⌊h2⌋.toNat + 1) (s.length - 1)) 0 := by
      refine sorted_getD_mono hs ?_ (lt_of_le_of_lt (min_le_right _ _) hlast)
      omega
    rw [heq] at f1le
    nlinarith [sub_nonneg.mpr hlo]
  · have e1 : s.getD (⌊h1⌋.toNat) 0 +
        (h1 - (⌊h1⌋.toNat : ℚ)) *
          (s.getD (min (⌊h1⌋.toNat + 1) (s.length - 1)) 0 -
            s.getD (⌊h1⌋.toNat) 0) ≤
        s.getD (min (⌊h1⌋.toNat + 1) (s.length - 1)) 0 := by
      have hlo : s.getD (⌊h1⌋.toNat) 0 ≤
          s.getD (min (⌊h1⌋.toNat + 1) (s.length - 1)) 0 := by
        refine sorted_getD_mono hs ?_ (lt_of_le_of_lt (min_le_right _ _) hlast)
        omega
      nlinarith [sub_nonneg.mpr hlo]
    have e2 : s.getD (min (⌊h1⌋.toNat + 1) (s.length - 1)) 0 ≤
        s.getD (⌊h2⌋.toNat) 0 := by
      refine sorted_getD_mono hs ?_ (by omega)
      omega
    have e3 : s.getD (⌊h2⌋.toNat) 0 ≤
        s.getD (⌊h2⌋.toNat) 0 +
          (h2 - (⌊h2⌋.toNat : ℚ)) *
            (s.getD (min (⌊h2⌋.toNat + 1) (s.length - 1)) 0 -
              s.getD (⌊h2⌋.toNat) 0) := by
      have hlo : s.getD (⌊h2⌋.toNat) 0 ≤
          s.getD (min (⌊h2⌋.toNat + 1) (s.length - 1)) 0 := by
        refine sorted_getD_mono hs ?_ (lt_of_le_of_lt (min_le_right _ _) hlast)
        omega
      nlinarith [sub_nonneg.mpr hlo]
    linarith

/-- `percentile` is non-decreasing in the percentage over `[0, 100]`. -/
lemma percentile_mono {values : List ℚ} (hne : values ≠ []) {p1 p2 : ℚ}
    (hp0 : 0 ≤ p1) (hp : p1 ≤ p2) (hp2 : p2 ≤ 100) :
    percentile values p1 ≤ percentile values p2 := by
  have hperm := List.perm_insertionSort (α := ℚ) (· ≤ ·) values
  have hlen : (List.insertionSort (· ≤ ·) values).length = values.length :=
    hperm.length_eq
  have hsne : List.insertionSort (· ≤ ·) values ≠ [] := by
    intro h
    exact hne (List.eq_nil_of_length_eq_zero (by rw [← hlen, h]; rfl))
  have hn : 1 ≤ values.length := List.length_pos.mpr hne
  have hn1 : (0:ℚ) ≤ (values.length : ℚ) - 1 := by
    have : (1:ℚ) ≤ (values.length : ℚ) := by exact_mod_cast hn
    linarith
  rw [percentile, percentile]
  refine interpAt_mono (List.sorted_insertionSort _ _) hsne ?_ ?_ ?_
  · positivity
  · have := mul_le_mul_of_nonneg_left hp hn1
    linarith
  · rw [hlen]
    rw [div_le_iff₀ (by norm_num : (0:ℚ) < 100)]
    nlinarith

/-- At fractional index zero, interpolation returns the first element. -/
lemma interpAt_zero (s : List ℚ) : interpAt s 0 = s.getD 0 0 := by
  simp [interpAt]

/-- For a non-empty list and a percentage in `[0, 100]`, some element of the
list is a minimum of the list and lies at or below the percentile. -/
lemma percentile_ge_min {values : List ℚ} (hne : values ≠ []) {p : ℚ}
    (hp0 : 0 ≤ p) (hp : p ≤ 100) :
    ∃ x ∈ values, x ≤ percentile values p ∧ ∀ y ∈ values, x ≤ y := by
  have hperm := List.perm_insertionSort (α := ℚ) (· ≤ ·) values
  have hsort := List.sorted_insertionSort (α := ℚ) (· ≤ ·) values
  have hlen : (List.insertionSort (· ≤ ·) values).length = values.length :=
    hperm.length_eq
  have hn : 1 ≤ values.length := List.length_pos.mpr hne
  have hslen : 0 < (List.insertionSort (· ≤ ·) values).length := by omega
  have hsne : List.insertionSort (· ≤ ·) values ≠ [] :=
    List.length_pos.mp hslen
  refine ⟨(List.insertionSort (· ≤ ·) values).getD 0 0, ?_, ?_, ?_⟩
  · have : (List.insertionSort (· ≤ ·) values).getD 0 0 ∈
        List.insertionSort (· ≤ ·) values := by
      rw [List.getD_eq_getElem _ 0 hslen]
      exact List.getElem_mem hslen
    exact hperm.mem_iff.mp this
  · have h0 : (0:ℚ) ≤ ((values.length : ℚ) - 1) * p / 100 := by
      have : (1:ℚ) ≤ (values.length : ℚ) := by exact_mod_cast hn
      have h1 : (0:ℚ) ≤ (values.length : ℚ) - 1 := by linarith
      positivity
    have hub : ((values.length : ℚ) - 1) * p / 100 ≤
        ((List.insertionSort (· ≤ ·) values).length : ℚ) - 1 := by
      rw [hlen, div_le_iff₀ (by norm_num : (0:ℚ) < 100)]
      have : (1:ℚ) ≤ (values.length : ℚ) := by exact_mod_cast hn
      nlinarith
    have := interpAt_mono hsort hsne le_rfl h0 hub
    rw [interpAt_zero] at this
    exact this.trans_eq rfl
  · intro y hy
    obtain ⟨j, hj, hget⟩ := List.getElem_of_mem (hperm.mem_iff.mpr hy)
    rw [← hget, ← List.getD_eq_getElem _ 0 hj]
    exact sorted_getD_mono hsort (Nat.zero_le j) hj

/-- A successful ratio extraction returns exactly the coerced ratio of every
member, in order, and certifies that every member's ratio field coerces. -/
lemma getRatios_ok {g rf : String} : ∀ {apps : List Applicant} {qs : List ℚ},
    getRatios g rf apps = .ok qs →
    qs = apps.map (fun a => a.ratioD rf) ∧
      ∀ a ∈ apps, (a.ratioVal rf).isSome := by
  intro apps
  induction apps with
  | nil =>
    intro qs h
    simp only [getRatios, Except.ok.injEq] at h
    simp [← h]
  | cons a rest ih =>
    intro qs h
    rcases hv : a.field rf with _ | v
    · simp [getRatios, hv] at h
    · rcases hq : pyFloat v with _ | q
      · simp [getRatios, hv, hq] at h
      · rcases hrest : getRatios g rf rest with e | qs1
        · simp [getRatios, hv, hq, hrest] at h
        · obtain ⟨h1, h2⟩ := ih hrest
          simp only [getRatios, hv, hq, hrest, Except.ok.injEq] at h
          subst h
          constructor
          · simp [h1, Applicant.ratioD, Applicant.ratioVal, hv, hq]
          · intro b hb
            rcases List.mem_cons.mp hb with rfl | hb
            · simp [Applicant.ratioVal, hv, hq]
            · exact h2 b hb

/-- If every member's ratio field coerces, ratio extraction succeeds with the
list of coerced ratios. -/
lemma getRatios_ok_of {g rf : String} : ∀ {apps : List Applicant},
    (∀ a ∈ apps, (a.ratioVal rf).isSome) →
    getRatios g rf apps = .ok (apps.map (fun a => a.ratioD rf)) := by
  intro apps
  induction apps with
  | nil => intro _; simp [getRatios]
  | cons a rest ih =>
    intro hall
    have ha : (a.ratioVal rf).isSome := hall a (by simp)
    rcases hv : a.field rf with _ | v
    · rw [Applicant.ratioVal, hv] at ha
      simp at ha
    · rcases hq : pyFloat v with _ | q
      · rw [Applicant.ratioVal, hv] at ha
        simp [hq] at ha
      · simp only [getRatios, hv, hq, ih (fun b hb => hall b (by simp [hb]))]
        simp [Applicant.ratioD, Applicant.ratioVal, hv, hq]

/-- Ratio extraction never raises the configuration error. -/
lemma getRatios_err_not_config {g rf : String} :
    ∀ {apps : List Applicant} {q : ℚ},
    getRatios g rf apps ≠ .error (.configError q) := by
  intro apps
  induction apps with
  | nil => intro q h; simp [getRatios] at h
  | cons a rest ih =>
    intro q h
    rcases hv : a.field rf with _ | v
    · simp [getRatios, hv] at h
    · rcases hq : pyFloat v with _ | q2
      · simp [getRatios, hv, hq] at h
      · rcases hrest : getRatios g rf rest with e | qs1
        · simp only [getRatios, hv, hq, hrest, Except.error.injEq] at h
          subst h
          exact ih hrest
        · simp [getRatios, hv, hq, hrest] at h

/-- Dict lookup after an insertion at the same key. -/
lemma dict_insert_self {α β : Type} [DecidableEq α] (d : Dict α β) (k : α)
    (v : β) : (d.insert k v) k = some v := by
  simp [Dict.insert]

/-- Dict lookup after an insertion at a different key. -/
lemma dict_insert_ne {α β : Type} [DecidableEq α] (d : Dict α β) {k x : α}
    (v : β) (h : x ≠ k) : (d.insert k v) x = d x := by
  simp [Dict.insert, h]

/-- Insertion never erases an existing entry. -/
lemma dict_insert_isSome {α β : Type} [DecidableEq α] (d : Dict α β) (k : α)
    (v : β) (x : α) (h : (d x).isSome) : ((d.insert k v) x).isSome := by
  rcases eq_or_ne x k with rfl | hne
  · simp [dict_insert_self]
  · rwa [dict_insert_ne d v hne]

/-- The decisions loop never erases an entry present before it runs. -/
lemma decideLoop_ok_mono {g rf idf : String} {thr : ℚ} :
    ∀ {apps : List Applicant} {d d2 : Dict PyVal Decision} {x : PyVal},
    decideLoop g rf idf thr apps d = .ok d2 → (d x).isSome →
    (d2 x).isSome := by
  intro apps
  induction apps with
  | nil =>
    intro d d2 x h hx
    simp only [decideLoop, Except.ok.injEq] at h
    rwa [← h]
  | cons a rest ih =>
    intro d d2 x h hx
    rcases hv : a.field rf with _ | v
    · simp [decideLoop, hv] at h
    · rcases hq : pyFloat v with _ | q
      · simp [decideLoop, hv, hq] at h
      · rcases hid : a.field idf with _ | idv
        · simp [decideLoop, hv, hq, hid] at h
        · simp only [decideLoop, hv, hq, hid] at h
          exact ih h (dict_insert_isSome d idv _ x hx)

/-- After a successful decisions loop, every member's id has an entry. -/
lemma decideLoop_ok_sets {g rf idf : String} {thr : ℚ} :
    ∀ {apps : List Applicant} {d d2 : Dict PyVal Decision}
      {a : Applicant} {x : PyVal},
    decideLoop g rf idf thr apps d = .ok d2 → a ∈ apps →
    a.field idf = some x → (d2 x).isSome := by
  intro apps
  induction apps with
  | nil => intro d d2 a x h ha; simp at ha
  | cons b rest ih =>
    intro d d2 a x h ha hid
    rcases hv : b.field rf with _ | v
    · simp [decideLoop, hv] at h
    · rcases hq : pyFloat v with _ | q
      · simp [decideLoop, hv, hq] at h
      · rcases hbid : b.field idf with _ | idv
        · simp [decideLoop, hv, hq, hbid] at h
        · simp only [decideLoop, hv, hq, hbid] at h
          rcases List.mem_cons.mp ha with rfl | ha
          · have : x = idv := by rw [hid] at hbid; exact Option.some.inj hbid
            subst this
            exact decideLoop_ok_mono h (by simp [dict_insert_self])
          · exact ih h ha hid

/-- The decisions loop leaves ids of non-members untouched. -/
lemma decideLoop_ok_notmem {g rf idf : String} {thr : ℚ} :
    ∀ {apps : List Applicant} {d d2 : Dict PyVal Decision} {x : PyVal},
    decideLoop g rf idf thr apps d = .ok d2 →
    (∀ a ∈ apps, a.field idf ≠ some x) → d2 x = d x := by
  intro apps
  induction apps with
  | nil =>
    intro d d2 x h _
    simp only [decideLoop, Except.ok.injEq] at h
    rw [← h]
  | cons b rest ih =>
    intro d d2 x h hall
    rcases hv : b.field rf with _ | v
    · simp [decideLoop, hv] at h
    · rcases hq : pyFloat v with _ | q
      · simp [decideLoop, hv, hq] at h
      · rcases hbid : b.field idf with _ | idv
        · simp [decideLoop, hv, hq, hbid] at h
        · simp only [decideLoop, hv, hq, hbid] at h
          have hxne : x ≠ idv := by
            intro hxx
            exact hall b (by simp) (by rw [hbid, hxx])
          rw [ih h (fun a ha => hall a (by simp [ha])),
            dict_insert_ne d _ hxne]

/-- After a successful decisions loop with distinct member ids, the entry of
a member's id is its own decision: approved exactly when its coerced ratio is
at most the threshold. -/
lemma decideLoop_ok_val {g rf idf : String} {thr : ℚ} :
    ∀ {apps : List Applicant} {d d2 : Dict PyVal Decision}
      {a : Applicant} {x : PyVal},
    decideLoop g rf idf thr apps d = .ok d2 → a ∈ apps →
    a.field idf = some x →
    (apps.filterMap (fun b => b.field idf)).Nodup →
    ∃ q, a.ratioVal rf = some q ∧
      d2 x = some (if q ≤ thr then .approved else .denied) := by
  intro apps
  induction apps with
  | nil => intro d d2 a x h ha; simp at ha
  | cons b rest ih =>
    intro d d2 a x h ha hid hnd
    rcases hv : b.field rf with _ | v
    · simp [decideLoop, hv] at h
    · rcases hq : pyFloat v with _ | q
      · simp [decideLoop, hv, hq] at h
      · rcases hbid : b.field idf with _ | idv
        · simp [decideLoop, hv, hq, hbid] at h
        · simp only [decideLoop, hv, hq, hbid] at h
          have hnd2 : (rest.filterMap (fun c => c.field idf)).Nodup := by
            rw [List.filterMap_cons, hbid] at hnd
            exact hnd.of_cons
          rcases List.mem_cons.mp ha with rfl | ha
          · have hxidv : x = idv := by
              rw [hid] at hbid; exact Option.some.inj hbid
            subst hxidv
            have hnotin : ∀ c ∈ rest, c.field idf ≠ some x := by
              intro c hc hcx
              rw [List.filterMap_cons, hbid] at hnd
              have : x ∈ rest.filterMap (fun c => c.field idf) :=
                List.mem_filterMap.mpr ⟨c, hc, hcx⟩
              exact (List.nodup_cons.mp hnd).1 this
            refine ⟨q, by simp [Applicant.ratioVal, hv, hq], ?_⟩
            rw [decideLoop_ok_notmem h hnotin, dict_insert_self]
          · exact ih h ha hid hnd2

/-- The decisions loop never raises the configuration error. -/
lemma decideLoop_err_not_config {g rf idf : String} {thr : ℚ} :
    ∀ {apps : List Applicant} {d : Dict PyVal Decision} {q : ℚ},
    decideLoop g rf idf thr apps d ≠ .error (.configError q) := by
  intro apps
  induction apps with
  | nil => intro d q h; simp [decideLoop] at h
  | cons b rest ih =>
    intro d q h
    rcases hv : b.field rf with _ | v
    · simp [decideLoop, hv] at h
    · rcases hq : pyFloat v with _ | q2
      · simp [decideLoop, hv, hq] at h
      · rcases hbid : b.field idf with _ | idv
        · simp [decideLoop, hv, hq, hbid] at h
        · simp only [decideLoop, hv, hq, hbid] at h
          exact ih h

/-- The group loop never erases a decision entry present before it runs. -/
lemma engineLoop_ok_dmono {r : ℚ} {rf idf : String} :
    ∀ {gs : List (String × List Applicant)} {d t d2 t2} {x : PyVal},
    engineLoop r rf idf gs d t = .ok (d2, t2) → (d x).isSome →
    (d2 x).isSome := by
  intro gs
  induction gs with
  | nil =>
    intro d t d2 t2 x h hx
    simp only [engineLoop, Except.ok.injEq, Prod.mk.injEq] at h
    rw [← h.1]; exact hx
  | cons p rest ih =>
    intro d t d2 t2 x h hx
    obtain ⟨g, apps⟩ := p
    rcases apps with _ | ⟨a0, apps0⟩
    · simp only [engineLoop] at h
      exact ih h hx
    · simp only [engineLoop] at h
      rcases hg : getRatios g rf (a0 :: apps0) with e | qs
      · rw [hg] at h; simp at h
      · rw [hg] at h
        simp only at h
        rcases hd : decideLoop g rf idf (percentile qs (100 * r))
            (a0 :: apps0) d with e | d1
        · rw [hd] at h; simp at h
        · rw [hd] at h
          simp only at h
          exact ih h (decideLoop_ok_mono hd hx)

/-- The group loop does not touch threshold entries of groups it does not
process. -/
lemma engineLoop_ok_tpreserve {r : ℚ} {rf idf : String} :
    ∀ {gs : List (String × List Applicant)} {d t d2 t2} {g : String},
    engineLoop r rf idf gs d t = .ok (d2, t2) →
    g ∉ gs.map Prod.fst → t2 g = t g := by
  intro gs
  induction gs with
  | nil =>
    intro d t d2 t2 g h _
    simp only [engineLoop, Except.ok.injEq, Prod.mk.injEq] at h
    rw [← h.2]
  | cons p rest ih =>
    intro d t d2 t2 g h hg
    obtain ⟨g0, apps⟩ := p
    have hgne : g ≠ g0 := by
      intro hh; exact hg (by simp [hh])
    have hgrest : g ∉ rest.map Prod.fst := by
      intro hh; exact hg (by simp [hh])
    rcases apps with _ | ⟨a0, apps0⟩
    · simp only [engineLoop] at h
      rw [ih h hgrest, dict_insert_ne t _ hgne]
    · simp only [engineLoop] at h
      rcases hr : getRatios g0 rf (a0 :: apps0) with e | qs
      · rw [hr] at h; simp at h
      · rw [hr] at h
        simp only at h
        rcases hd : decideLoop g0 rf idf (percentile qs (100 * r))
            (a0 :: apps0) d with e | d1
        · rw [hd] at h; simp at h
        · rw [hd] at h
          simp only at h
          rw [ih h hgrest, dict_insert_ne t _ hgne]

/-- The group loop leaves decision entries of ids that belong to no member
untouched. -/
lemma engineLoop_ok_dnotmem {r : ℚ} {rf idf : String} :
    ∀ {gs : List (String × List Applicant)} {d t d2 t2} {x : PyVal},
    engineLoop r rf idf gs d t = .ok (d2, t2) →
    (∀ p ∈ gs, ∀ a ∈ p.2, a.field idf ≠ some x) → d2 x = d x := by
  intro gs
  induction gs with
  | nil =>
    intro d t d2 t2 x h _
    simp only [engineLoop, Except.ok.injEq, Prod.mk.injEq] at h
    rw [← h.1]
  | cons p rest ih =>
    intro d t d2 t2 x h hall
    obtain ⟨g, apps⟩ := p
    rcases apps with _ | ⟨a0, apps0⟩
    · simp only [engineLoop] at h
      exact ih h (fun p hp => hall p (by simp [hp]))
    · simp only [engineLoop] at h
      rcases hr : getRatios g rf (a0 :: apps0) with e | qs
      · rw [hr] at h; simp at h
      · rw [hr] at h
        simp only at h
        rcases hd : decideLoop g rf idf (percentile qs (100 * r))
            (a0 :: apps0) d with e | d1
        · rw [hd] at h; simp at h
        · rw [hd] at h
          simp only at h
          rw [ih h (fun p hp => hall p (by simp [hp]))]
          exact decideLoop_ok_notmem hd
            (fun a ha => hall (g, a0 :: apps0) (by simp) a ha)

/-- Unfolding of `allIds` over the head cohort. -/
lemma allIds_cons (p : String × List Applicant)
    (rest : List (String × List Applicant)) (idf : String) :
    allIds (p :: rest) idf =
      p.2.filterMap (fun a => a.field idf) ++ allIds rest idf := by
  simp [allIds]

/-- After a successful group loop with distinct group names, the threshold
entry of each input group is `-inf` for an empty group and the linear
percentile of its members' ratios otherwise. -/
lemma engineLoop_ok_thresh {r : ℚ} {rf idf : String} :
    ∀ {gs : List (String × List Applicant)} {d t d2 t2}
      {g : String} {apps : List Applicant},
    engineLoop r rf idf gs d t = .ok (d2, t2) →
    (gs.map Prod.fst).Nodup → (g, apps) ∈ gs →
    t2 g = some (if apps = [] then .negInf
      else .val (percentile (apps.map fun a => a.ratioD rf) (100 * r))) := by
  intro gs
  induction gs with
  | nil => intro d t d2 t2 g apps h _ hmem; simp at hmem
  | cons p rest ih =>
    intro d t d2 t2 g apps h hnd hmem
    obtain ⟨g0, apps0⟩ := p
    have hnd2 : (rest.map Prod.fst).Nodup := hnd.of_cons
    rcases List.mem_cons.mp hmem with heq | hmem2
    · rw [Prod.mk.injEq] at heq
      obtain ⟨h1, h2⟩ := heq
      subst h1
      subst h2
      have hgrest : g ∉ rest.map Prod.fst := by
        have := List.nodup_cons.mp hnd
        simpa using this.1
      rcases apps with _ | ⟨a0, apps0'⟩
      · simp only [engineLoop] at h
        rw [engineLoop_ok_tpreserve h hgrest, dict_insert_self]
        simp
      · simp only [engineLoop] at h
        rcases hr : getRatios g rf (a0 :: apps0') with e | qs
        · rw [hr] at h; simp at h
        · rw [hr] at h
          simp only at h
          rcases hd : decideLoop g rf idf (percentile qs (100 * r))
              (a0 :: apps0') d with e | d1
          · rw [hd] at h; simp at h
          · rw [hd] at h
            simp only at h
            rw [engineLoop_ok_tpreserve h hgrest, dict_insert_self]
            rw [(getRatios_ok hr).1]
            simp
    · rcases apps0 with _ | ⟨a0, apps0'⟩
      · simp only [engineLoop] at h
        exact ih h hnd2 hmem2
      · simp only [engineLoop] at h
        rcases hr : getRatios g0 rf (a0 :: apps0') with e | qs
        · rw [hr] at h; simp at h
        · rw [hr] at h
          simp only at h
          rcases hd : decideLoop g0 rf idf (percentile qs (100 * r))
              (a0 :: apps0') d with e | d1
          · rw [hd] at h; simp at h
          · rw [hd] at h
            simp only at h
            exact ih h hnd2 hmem2

/-- After a successful group loop, every member of every cohort has a
decision entry at its id. -/
lemma engineLoop_ok_sets {r : ℚ} {rf idf : String} :
    ∀ {gs : List (String × List Applicant)} {d t d2 t2}
      {g : String} {apps : List Applicant} {a : Applicant} {x : PyVal},
    engineLoop r rf idf gs d t = .ok (d2, t2) →
    (g, apps) ∈ gs → a ∈ apps → a.field idf = some x →
    (d2 x).isSome := by
  intro gs
  induction gs with
  | nil => intro d t d2 t2 g apps a x h hmem; simp at hmem
  | cons p rest ih =>
    intro d t d2 t2 g apps a x h hmem ha hid
    obtain ⟨g0, apps0⟩ := p
    rcases List.mem_cons.mp hmem with heq | hmem2
    · rw [Prod.mk.injEq] at heq
      obtain ⟨h1, h2⟩ := heq
      subst h1
      subst h2
      rcases apps with _ | ⟨a0, apps0'⟩
      · simp at ha
      · simp only [engineLoop] at h
        rcases hr : getRatios g rf (a0 :: apps0') with e | qs
        · rw [hr] at h; simp at h
        · rw [hr] at h
          simp only at h
          rcases hd : decideLoop g rf idf (percentile qs (100 * r))
              (a0 :: apps0') d with e | d1
          · rw [hd] at h; simp at h
          · rw [hd] at h
            simp only at h
            exact engineLoop_ok_dmono h (decideLoop_ok_sets hd ha hid)
    · rcases apps0 with _ | ⟨a0, apps0'⟩
      · simp only [engineLoop] at h
        exact ih h hmem2 ha hid
      · simp only [engineLoop] at h
        rcases hr : getRatios g0 rf (a0 :: apps0') with e | qs
        · rw [hr] at h; simp at h
        · rw [hr] at h
          simp only at h
          rcases hd : decideLoop g0 rf idf (percentile qs (100 * r))
              (a0 :: apps0') d with e | d1
          · rw [hd] at h; simp at h
          · rw [hd] at h
            simp only at h
            exact ih h hmem2 ha hid

/-- After a successful group loop with globally distinct member ids, the
decision entry of each member's id is its own decision relative to its
cohort's percentile threshold. -/
lemma engineLoop_ok_val {r : ℚ} {rf idf : String} :
    ∀ {gs : List (String × List Applicant)} {d t d2 t2}
      {g : String} {apps : List Applicant} {a : Applicant} {x : PyVal},
    engineLoop r rf idf gs d t = .ok (d2, t2) →
    (allIds gs idf).Nodup →
    (g, apps) ∈ gs → a ∈ apps → a.field idf = some x →
    ∃ q, a.ratioVal rf = some q ∧
      d2 x = some (if q ≤ percentile (apps.map fun b => b.ratioD rf) (100 * r)
        then .approved else .denied) := by
  intro gs
  induction gs with
  | nil => intro d t d2 t2 g apps a x h _ hmem; simp at hmem
  | cons p rest ih =>
    intro d t d2 t2 g apps a x h hnd hmem ha hid
    obtain ⟨g0, apps0⟩ := p
    rw [allIds_cons, List.nodup_append] at hnd
    obtain ⟨hndg, hndrest, hdisj⟩ := hnd
    rcases List.mem_cons.mp hmem with heq | hmem2
    · rw [Prod.mk.injEq] at heq
      obtain ⟨h1, h2⟩ := heq
      subst h1
      subst h2
      rcases apps with _ | ⟨a0, apps0'⟩
      · simp at ha
      · simp only [engineLoop] at h
        rcases hr : getRatios g rf (a0 :: apps0') with e | qs
        · rw [hr] at h; simp at h
        · rw [hr] at h
          simp only at h
          rcases hd : decideLoop g rf idf (percentile qs (100 * r))
              (a0 :: apps0') d with e | d1
          · rw [hd] at h; simp at h
          · rw [hd] at h
            simp only at h
            obtain ⟨q, hq, hd1x⟩ := decideLoop_ok_val hd ha hid hndg
            refine ⟨q, hq, ?_⟩
            have hxmem : x ∈ (a0 :: apps0').filterMap
                (fun b => b.field idf) :=
              List.mem_filterMap.mpr ⟨a, ha, hid⟩
            have hnot : ∀ p ∈ rest, ∀ b ∈ p.2, b.field idf ≠ some x := by
              intro p hp b hb hbx
              refine hdisj hxmem ?_
              exact List.mem_flatMap.mpr
                ⟨p, hp, List.mem_filterMap.mpr ⟨b, hb, hbx⟩⟩
            rw [engineLoop_ok_dnotmem h hnot, hd1x, (getRatios_ok hr).1]
    · rcases apps0 with _ | ⟨a0, apps0'⟩
      · simp only [engineLoop] at h
        exact ih h hndrest hmem2 ha hid
      · simp only [engineLoop] at h
        rcases hr : getRatios g0 rf (a0 :: apps0') with e | qs
        · rw [hr] at h; simp at h
        · rw [hr] at h
          simp only at h
          rcases hd : decideLoop g0 rf idf (percentile qs (100 * r))
              (a0 :: apps0') d with e | d1
          · rw [hd] at h; simp at h
          · rw [hd] at h
            simp only at h
            exact ih h hndrest hmem2 ha hid

/-- The group loop never raises the configuration error. -/
lemma engineLoop_err_not_config {r : ℚ} {rf idf : String} :
    ∀ {gs : List (String × List Applicant)} {d t} {q : ℚ},
    engineLoop r rf idf gs d t ≠ .error (.configError q) := by
  intro gs
  induction gs with
  | nil => intro d t q h; simp [engineLoop] at h
  | cons p rest ih =>
    intro d t q h
    obtain ⟨g, apps⟩ := p
    rcases apps with _ | ⟨a0, apps0⟩
    · simp only [engineLoop] at h
      exact ih h
    · simp only [engineLoop] at h
      rcases hr : getRatios g rf (a0 :: apps0) with e | qs
      · rw [hr] at h
        simp only [Except.error.injEq] at h
        exact getRatios_err_not_config (h ▸ hr)
      · rw [hr] at h
        simp only at h
        rcases hd : decideLoop g rf idf (percentile qs (100 * r))
            (a0 :: apps0) d with e | d1
        · rw [hd] at h
          simp only [Except.error.injEq] at h
          exact decideLoop_err_not_config (h ▸ hd)
        · rw [hd] at h
          simp only at h
          exact ih h

/-- A successful run certifies a valid rate and unfolds to the group loop. -/
lemma calc_ok {gs : List (String × List Applicant)} {r : ℚ} {rf idf : String}
    {d t} (h : calculate_approvals gs r rf idf = .ok (d, t)) :
    (0 ≤ r ∧ r ≤ 1) ∧
      engineLoop r rf idf gs Dict.empty Dict.empty = .ok (d, t) := by
  rw [calculate_approvals] at h
  split at h
  · exact ⟨by assumption, h⟩
  · simp at h

/-- C4: for a target rate outside `[0, 1]`, `calculate_approvals` raises the
configuration error immediately — the same error for every cohort partition,
so no cohort is processed and nothing is returned — while for a rate inside
`[0, 1]` the configuration error is never raised. -/
theorem claim_C4_rate_range_check (gs : List (String × List Applicant))
    (r : ℚ) (rf idf : String) :
    (¬ (0 ≤ r ∧ r ≤ 1) →
      calculate_approvals gs r rf idf = .error (.configError r)) ∧
    ((0 ≤ r ∧ r ≤ 1) → ∀ q : ℚ,
      calculate_approvals gs r rf idf ≠ .error (.configError q)) := by
  constructor
  · intro hr
    rw [calculate_approvals, if_neg hr]
  · intro hr q hcontra
    rw [calculate_approvals, if_pos hr] at hcontra
    exact engineLoop_err_not_config hcontra

/-- C4 witness: at rate 2 the run fails with the configuration error carrying
the rate; at rate 1/2 no configuration error occurs. -/
theorem claim_C4_rate_range_check_witness :
    calculate_approvals wmGrouped 2 "debt_to_income_ratio" "id" =
      .error (.configError 2) ∧
    calculate_approvals wmGrouped (1/2) "debt_to_income_ratio" "id" ≠
      .error (.configError (1/2)) :=
  ⟨(claim_C4_rate_range_check wmGrouped 2 "debt_to_income_ratio" "id").1
      (by norm_num),
   (claim_C4_rate_range_check wmGrouped (1/2) "debt_to_income_ratio" "id").2
      (by norm_num) (1/2)⟩

/-- C5: on a successful run over distinctly named cohorts, every cohort of
the input has a threshold entry — `-inf` for empty cohorts — and the
decisions map holds an entry exactly for the ids of the members of the
non-empty cohorts. -/
theorem claim_C5_output_domains (gs : List (String × List Applicant))
    (r : ℚ) (rf idf : String) (d : Dict PyVal Decision)
    (t : Dict String Thresh)
    (hok : calculate_approvals gs r rf idf = .ok (d, t))
    (hnd : (gs.map Prod.fst).Nodup) :
    (∀ g apps, (g, apps) ∈ gs →
      ∃ th, t g = some th ∧ (apps = [] → th = .negInf)) ∧
    (∀ x : PyVal, (d x).isSome ↔
      ∃ p ∈ gs, ∃ a ∈ p.2, a.field idf = some x) := by
  obtain ⟨hrate, hloop⟩ := calc_ok hok
  constructor
  · intro g apps hmem
    refine ⟨_, engineLoop_ok_thresh hloop hnd hmem, ?_⟩
    intro happ
    rw [if_pos happ]
  · intro x
    constructor
    · intro hx
      by_contra hno
      push_neg at hno
      have : d x = Dict.empty x :=
        engineLoop_ok_dnotmem hloop
          (fun p hp a ha hax => hno p hp a ha hax)
      rw [this] at hx
      simp [Dict.empty] at hx
    · rintro ⟨p, hp, a, ha, hax⟩
      exact engineLoop_ok_sets hloop hp ha hax

/-- C5 witness: in the run over a partition holding an empty "Asian Female"
cohort and the example "White Male" cohort, the empty cohort has a threshold
entry that is `-inf`, and id 1 has a decision entry. -/
theorem claim_C5_output_domains_witness :
    (∃ th, t5 "Asian Female" = some th ∧
      (([] : List Applicant) = [] → th = Thresh.negInf)) ∧
    (wmD (.num 1)).isSome = true := by
  obtain ⟨h1, h2⟩ := claim_C5_output_domains gs5 (1/2) "debt_to_income_ratio"
    "id" wmD t5 run5 (by simp [gs5])
  refine ⟨h1 "Asian Female" [] (by simp [gs5]), ?_⟩
  refine (h2 (.num 1)).mpr
    ⟨("White Male", wmApps), by simp [gs5],
      [("id", .num 1), ("debt_to_income_ratio", .num 10)], by simp [wmApps],
      by simp [Applicant.field, List.lookup]⟩

/-- C2: on a successful run with distinct cohort names and globally distinct
member ids, a member's decision entry is `approved` exactly when its coerced
risk ratio is at most its cohort's threshold (ties included, since the
comparison is non-strict). -/
theorem claim_C2_decision_iff_le_threshold
    (gs : List (String × List Applicant)) (r : ℚ) (rf idf : String)
    (d : Dict PyVal Decision) (t : Dict String Thresh)
    (g : String) (apps : List Applicant) (a : Applicant) (x : PyVal) (th : ℚ)
    (hok : calculate_approvals gs r rf idf = .ok (d, t))
    (hndk : (gs.map Prod.fst).Nodup)
    (hndi : (allIds gs idf).Nodup)
    (hmem : (g, apps) ∈ gs) (ha : a ∈ apps) (hid : a.field idf = some x)
    (hth : t g = some (.val th)) :
    ∃ q, a.ratioVal rf = some q ∧ (d x = some .approved ↔ q ≤ th) := by
  obtain ⟨hrate, hloop⟩ := calc_ok hok
  obtain ⟨q, hq, hdx⟩ := engineLoop_ok_val hloop hndi hmem ha hid
  have hthr := engineLoop_ok_thresh hloop hndk hmem
  have happne : apps ≠ [] := by rintro rfl; simp at ha
  rw [if_neg happne, hth] at hthr
  have hthp : th = percentile (apps.map fun b => b.ratioD rf) (100 * r) :=
    Thresh.val.inj (Option.some.inj hthr)
  rw [← hthp] at hdx
  refine ⟨q, hq, ?_⟩
  rw [hdx]
  by_cases hc : q ≤ th
  · simp [hc]
  · simp [hc]

/-- C2 witness: in the example run, the member with id 1 and ratio 10 of the
"White Male" cohort is approved exactly when 10 is at most the threshold
25. -/
theorem claim_C2_decision_iff_le_threshold_witness :
    ∃ q, Applicant.ratioVal
        [("id", PyVal.num 1), ("debt_to_income_ratio", PyVal.num 10)]
        "debt_to_income_ratio" = some q ∧
      (wmD (.num 1) = some .approved ↔ q ≤ 25) :=
  claim_C2_decision_iff_le_threshold wmGrouped (1/2) "debt_to_income_ratio"
    "id" wmD wmT "White Male" wmApps
    [("id", .num 1), ("debt_to_income_ratio", .num 10)] (.num 1) 25
    wmRun (by simp [wmGrouped])
    (by norm_num [allIds, wmGrouped, wmApps, Applicant.field, List.lookup,
      List.filterMap_cons])
    (by simp [wmGrouped]) (by simp [wmApps])
    (by simp [Applicant.field, List.lookup])
    (by simp [wmT, Dict.insert])

/-- C3: for a fixed cohort of the partition, across two successful runs at
rates `r1 ≤ r2`, the number of members at or below the returned threshold is
non-decreasing. -/
theorem claim_C3_count_monotone
    (gs : List (String × List Applicant)) (r1 r2 : ℚ) (rf idf : String)
    (d1 : Dict PyVal Decision) (t1 : Dict String Thresh)
    (d2 : Dict PyVal Decision) (t2 : Dict String Thresh)
    (g : String) (apps : List Applicant) (th1 th2 : ℚ)
    (h12 : r1 ≤ r2)
    (hok1 : calculate_approvals gs r1 rf idf = .ok (d1, t1))
    (hok2 : calculate_approvals gs r2 rf idf = .ok (d2, t2))
    (hnd : (gs.map Prod.fst).Nodup)
    (hmem : (g, apps) ∈ gs)
    (hth1 : t1 g = some (.val th1)) (hth2 : t2 g = some (.val th2)) :
    apps.countP (fun a => decide (a.ratioD rf ≤ th1)) ≤
      apps.countP (fun a => decide (a.ratioD rf ≤ th2)) := by
  obtain ⟨hrate1, hloop1⟩ := calc_ok hok1
  obtain ⟨hrate2, hloop2⟩ := calc_ok hok2
  have h1 := engineLoop_ok_thresh hloop1 hnd hmem
  have h2 := engineLoop_ok_thresh hloop2 hnd hmem
  by_cases happ : apps = []
  · rw [if_pos happ, hth1] at h1
    exact absurd (Option.some.inj h1) (by simp)
  · rw [if_neg happ, hth1] at h1
    rw [if_neg happ, hth2] at h2
    have e1 : th1 = percentile (apps.map fun b => b.ratioD rf) (100 * r1) :=
      Thresh.val.inj (Option.some.inj h1)
    have e2 : th2 = percentile (apps.map fun b => b.ratioD rf) (100 * r2) :=
      Thresh.val.inj (Option.some.inj h2)
    have hmono : th1 ≤ th2 := by
      rw [e1, e2]
      refine percentile_mono (by simpa using happ) ?_ ?_ ?_
      · nlinarith [hrate1.1]
      · nlinarith
      · nlinarith [hrate2.2]
    refine List.countP_mono_left ?_
    intro a _ hp
    exact decide_eq_true (le_trans (of_decide_eq_true hp) hmono)

/-- C3 witness: on the example cohort, the approval count at the rate-1/4
threshold 35/2 is at most the approval count at the rate-1/2 threshold 25. -/
theorem claim_C3_count_monotone_witness :
    wmApps.countP (fun a =>
        decide (a.ratioD "debt_to_income_ratio" ≤ 35/2)) ≤
      wmApps.countP (fun a =>
        decide (a.ratioD "debt_to_income_ratio" ≤ 25)) :=
  claim_C3_count_monotone wmGrouped (1/4) (1/2) "debt_to_income_ratio" "id"
    wmDq wmTq wmD wmT "White Male" wmApps (35/2) 25
    (by norm_num) wmRunQ wmRun (by simp [wmGrouped]) (by simp [wmGrouped])
    (by simp [wmTq, Dict.insert]) (by simp [wmT, Dict.insert])

/-- C10: on a successful run, every non-empty cohort's threshold is a finite
value at or above some minimal member's ratio, so that member is at or below
the threshold and the cohort's approval count is at least one. -/
theorem claim_C10_min_member_approved
    (gs : List (String × List Applicant)) (r : ℚ) (rf idf : String)
    (d : Dict PyVal Decision) (t : Dict String Thresh)
    (g : String) (apps : List Applicant) (th : Thresh)
    (hok : calculate_approvals gs r rf idf = .ok (d, t))
    (hnd : (gs.map Prod.fst).Nodup)
    (hmem : (g, apps) ∈ gs) (happne : apps ≠ [])
    (hth : t g = some th) :
    ∃ thv, th = .val thv ∧
      ∃ a ∈ apps, a.ratioD rf ≤ thv ∧
        (∀ b ∈ apps, a.ratioD rf ≤ b.ratioD rf) ∧
        1 ≤ apps.countP (fun b => decide (b.ratioD rf ≤ thv)) := by
  obtain ⟨hrate, hloop⟩ := calc_ok hok
  have h1 := engineLoop_ok_thresh hloop hnd hmem
  rw [if_neg happne, hth] at h1
  have e : th = .val (percentile (apps.map fun b => b.ratioD rf) (100 * r)) :=
    Option.some.inj h1
  refine ⟨percentile (apps.map fun b => b.ratioD rf) (100 * r), e, ?_⟩
  obtain ⟨x, hx, hxle, hmin⟩ :=
    percentile_ge_min
      (show (apps.map fun b => b.ratioD rf) ≠ [] by simpa using happne)
      (p := 100 * r)
      (by nlinarith [hrate.1]) (by nlinarith [hrate.2])
  obtain ⟨a, ha, hax⟩ := List.mem_map.mp hx
  refine ⟨a, ha, by rw [hax]; exact hxle, ?_, ?_⟩
  · intro b hb
    rw [hax]
    exact hmin _ (List.mem_map_of_mem _ hb)
  · exact List.countP_pos_iff.mpr ⟨a, ha, decide_eq_true (by rw [hax]; exact hxle)⟩

/-- C10 witness: in the example run the member with ratio 10 is minimal and
approved at the threshold 25, so the cohort's approval count is positive. -/
theorem claim_C10_min_member_approved_witness :
    ∃ thv, Thresh.val 25 = .val thv ∧
      ∃ a ∈ wmApps, a.ratioD "debt_to_income_ratio" ≤ thv ∧
        (∀ b ∈ wmApps, a.ratioD "debt_to_income_ratio" ≤
          b.ratioD "debt_to_income_ratio") ∧
        1 ≤ wmApps.countP (fun b =>
          decide (b.ratioD "debt_to_income_ratio" ≤ thv)) :=
  claim_C10_min_member_approved wmGrouped (1/2) "debt_to_income_ratio" "id"
    wmD wmT "White Male" wmApps (.val 25) wmRun (by simp [wmGrouped])
    (by simp [wmGrouped]) (by simp [wmApps]) (by simp [wmT, Dict.insert])

/-- Ratio extraction fails whenever some member's risk field is missing or
non-coercible. -/
lemma getRatios_bad_fails {g rf : String} :
    ∀ {apps : List Applicant},
    (∃ a ∈ apps, a.ratioVal rf = none) →
    ∃ e, getRatios g rf apps = .error e := by
  intro apps
  induction apps with
  | nil => rintro ⟨a, ha, _⟩; simp at ha
  | cons a0 rest ih =>
    rintro ⟨a, ha, hbad⟩
    rcases hv : a0.field rf with _ | v
    · exact ⟨.missingField rf, by simp [getRatios, hv]⟩
    · rcases hq : pyFloat v with _ | q
      · exact ⟨.invalidRatio g, by simp [getRatios, hv, hq]⟩
      · rcases List.mem_cons.mp ha with rfl | ha2
        · rw [Applicant.ratioVal, hv] at hbad
          simp [hq] at hbad
        · obtain ⟨e, he⟩ := ih ⟨a, ha2, hbad⟩
          exact ⟨e, by simp [getRatios, hv, hq, he]⟩

/-- The group loop fails whenever some member of some cohort has a missing or
non-coercible risk field. -/
lemma engineLoop_bad_fails {r : ℚ} {rf idf : String} :
    ∀ {gs : List (String × List Applicant)} {d t},
    (∃ p ∈ gs, ∃ a ∈ p.2, a.ratioVal rf = none) →
    ∃ e, engineLoop r rf idf gs d t = .error e := by
  intro gs
  induction gs with
  | nil => rintro d t ⟨p, hp, _⟩; simp at hp
  | cons p0 rest ih =>
    rintro d t ⟨p, hp, a, ha, hbad⟩
    obtain ⟨g0, apps0⟩ := p0
    rcases List.mem_cons.mp hp with heq | hp2
    · rw [heq] at ha
      have ha2 : a ∈ apps0 := ha
      rcases apps0 with _ | ⟨a0, apps0'⟩
      · simp at ha2
      · obtain ⟨e, he⟩ := @getRatios_bad_fails g0 rf (a0 :: apps0')
          ⟨a, ha2, hbad⟩
        refine ⟨e, ?_⟩
        simp only [engineLoop]
        rw [he]
    · rcases apps0 with _ | ⟨a0, apps0'⟩
      · obtain ⟨e, he⟩ := ih (d := d) (t := t.insert g0 .negInf)
          ⟨p, hp2, a, ha, hbad⟩
        exact ⟨e, by simp only [engineLoop]; exact he⟩
      · rcases hr : getRatios g0 rf (a0 :: apps0') with e0 | qs
        · exact ⟨e0, by simp only [engineLoop]; rw [hr]⟩
        · rcases hd : decideLoop g0 rf idf (percentile qs (100 * r))
              (a0 :: apps0') d with e0 | d1
          · refine ⟨e0, ?_⟩
            simp only [engineLoop]
            rw [hr]
            simp only
            rw [hd]
          · obtain ⟨e, he⟩ := ih (d := d1)
              (t := t.insert g0 (.val (percentile qs (100 * r))))
              ⟨p, hp2, a, ha, hbad⟩
            refine ⟨e, ?_⟩
            simp only [engineLoop]
            rw [hr]
            simp only
            rw [hd]
            exact he

/-- When every member has the risk field but some value fails to coerce,
ratio extraction raises the group-naming error. -/
lemma getRatios_invalid {g rf : String} :
    ∀ {apps : List Applicant},
    (∀ a ∈ apps, ∃ v, a.field rf = some v) →
    (∃ a ∈ apps, a.ratioVal rf = none) →
    getRatios g rf apps = .error (.invalidRatio g) := by
  intro apps
  induction apps with
  | nil => rintro _ ⟨a, ha, _⟩; simp at ha
  | cons a0 rest ih =>
    rintro hfield ⟨a, ha, hbad⟩
    obtain ⟨v, hv⟩ := hfield a0 (by simp)
    rcases hq : pyFloat v with _ | q
    · simp [getRatios, hv, hq]
    · rcases List.mem_cons.mp ha with rfl | ha2
      · rw [Applicant.ratioVal, hv] at hbad
        simp [hq] at hbad
      · have := ih (fun b hb => hfield b (by simp [hb])) ⟨a, ha2, hbad⟩
        simp [getRatios, hv, hq, this]

/-- When every member's risk field is either absent or coercible and some
member's field is absent, ratio extraction raises the field-naming error,
which carries no group name. -/
lemma getRatios_missing {g rf : String} :
    ∀ {apps : List Applicant},
    (∀ a ∈ apps, a.field rf = none ∨ (a.ratioVal rf).isSome) →
    (∃ a ∈ apps, a.field rf = none) →
    getRatios g rf apps = .error (.missingField rf) := by
  intro apps
  induction apps with
  | nil => rintro _ ⟨a, ha, _⟩; simp at ha
  | cons a0 rest ih =>
    rintro hgood ⟨a, ha, hbad⟩
    rcases hgood a0 (by simp) with hnone | hsome
    · simp [getRatios, hnone]
    · rcases hv : a0.field rf with _ | v
      · simp [getRatios, hv]
      · rw [Applicant.ratioVal, hv] at hsome
        rcases hq : pyFloat v with _ | q
        · simp [hq] at hsome
        · rcases List.mem_cons.mp ha with rfl | ha2
          · rw [hv] at hbad; simp at hbad
          · have := ih (fun b hb => hgood b (by simp [hb])) ⟨a, ha2, hbad⟩
            simp [getRatios, hv, hq, this]

set_option maxRecDepth 100000 in
/-- C6 counterexample: on a cohort named "G" whose member lacks the risk
field, `calculate_approvals` raises the re-raised `KeyError`, which carries
the field name and not the cohort name — in particular it is not the
group-identifying error of cohort "G". -/
theorem claim_C6_missing_field_counterexample :
    calculate_approvals gsMissing (1/2) "debt_to_income_ratio" "id" =
      .error (.missingField "debt_to_income_ratio") ∧
    EngineError.missingField "debt_to_income_ratio" ≠
      EngineError.invalidRatio "G" := by
  constructor
  · rw [calculate_approvals, if_pos (by norm_num)]
    rw [gsMissing]
    simp only [engineLoop]
    have hg : getRatios "G" "debt_to_income_ratio" [[("id", PyVal.num 1)]] =
        .error (.missingField "debt_to_income_ratio") := by
      simp [getRatios, Applicant.field, List.lookup]
    rw [hg]
  · simp

/-- C6 amended: a missing or non-coercible risk value always aborts the run
with an error and no partial output; the error names the offending cohort
when a present value fails to coerce, while a missing risk field yields the
field-naming error that carries no cohort name. -/
theorem claim_C6_amended_error_taxonomy :
    (∀ (gs : List (String × List Applicant)) (r : ℚ) (rf idf : String),
      (0 ≤ r ∧ r ≤ 1) →
      (∃ p ∈ gs, ∃ a ∈ p.2, a.ratioVal rf = none) →
      ∃ e, calculate_approvals gs r rf idf = .error e) ∧
    (∀ (g : String) (apps : List Applicant) (r : ℚ) (rf idf : String),
      (0 ≤ r ∧ r ≤ 1) →
      (∀ a ∈ apps, ∃ v, a.field rf = some v) →
      (∃ a ∈ apps, a.ratioVal rf = none) →
      calculate_approvals [(g, apps)] r rf idf =
        .error (.invalidRatio g)) ∧
    (∀ (g : String) (apps : List Applicant) (r : ℚ) (rf idf : String),
      (0 ≤ r ∧ r ≤ 1) →
      (∀ a ∈ apps, a.field rf = none ∨ (a.ratioVal rf).isSome) →
      (∃ a ∈ apps, a.field rf = none) →
      calculate_approvals [(g, apps)] r rf idf =
        .error (.missingField rf)) := by
  refine ⟨?_, ?_, ?_⟩
  · intro gs r rf idf hr hbad
    obtain ⟨e, he⟩ := @engineLoop_bad_fails r rf idf gs Dict.empty
      Dict.empty hbad
    exact ⟨e, by rw [calculate_approvals, if_pos hr]; exact he⟩
  · intro g apps r rf idf hr hfield hbad
    rw [calculate_approvals, if_pos hr]
    rcases apps with _ | ⟨a0, rest⟩
    · obtain ⟨a, ha, _⟩ := hbad
      simp at ha
    · simp only [engineLoop]
      rw [getRatios_invalid hfield hbad]
  · intro g apps r rf idf hr hgood hbad
    rw [calculate_approvals, if_pos hr]
    rcases apps with _ | ⟨a0, rest⟩
    · obtain ⟨a, ha, _⟩ := hbad
      simp at ha
    · simp only [engineLoop]
      rw [getRatios_missing hgood hbad]

set_option maxRecDepth 100000 in
/-- C6 amended witness: the three error behaviours at concrete inputs — a
general failure on the cohort with a bad value, the cohort-naming error for
the non-coercible value, and the field-naming error for the missing field. -/
theorem claim_C6_amended_error_taxonomy_witness :
    (∃ e, calculate_approvals gsBadVal (1/2) "debt_to_income_ratio" "id" =
      .error e) ∧
    calculate_approvals gsBadVal (1/2) "debt_to_income_ratio" "id" =
      .error (.invalidRatio "G") ∧
    calculate_approvals gsMissing (1/2) "debt_to_income_ratio" "id" =
      .error (.missingField "debt_to_income_ratio") := by
  refine ⟨?_, ?_, ?_⟩
  · refine claim_C6_amended_error_taxonomy.1 gsBadVal (1/2)
      "debt_to_income_ratio" "id" (by norm_num)
      ⟨("G", [[("id", .num 1), ("debt_to_income_ratio", .strBad "n/a")]]),
        by simp [gsBadVal],
        [("id", .num 1), ("debt_to_income_ratio", .strBad "n/a")], by simp,
        by simp [Applicant.ratioVal, Applicant.field, List.lookup, pyFloat]⟩
  · have := claim_C6_amended_error_taxonomy.2.1 "G"
      [[("id", .num 1), ("debt_to_income_ratio", .strBad "n/a")]] (1/2)
      "debt_to_income_ratio" "id" (by norm_num)
      (by
        intro a ha
        simp only [List.mem_singleton] at ha
        subst ha
        exact ⟨.strBad "n/a", by simp [Applicant.field, List.lookup]⟩)
      ⟨[("id", .num 1), ("debt_to_income_ratio", .strBad "n/a")], by simp,
        by simp [Applicant.ratioVal, Applicant.field, List.lookup, pyFloat]⟩
    rw [gsBadVal]
    exact this
  · have := claim_C6_amended_error_taxonomy.2.2 "G" [[("id", .num 1)]] (1/2)
      "debt_to_income_ratio" "id" (by norm_num)
      (by
        intro a ha
        simp only [List.mem_singleton] at ha
        subst ha
        exact Or.inl (by simp [Applicant.field, List.lookup]))
      ⟨[("id", .num 1)], by simp,
        by simp [Applicant.field, List.lookup]⟩
    rw [gsMissing]
    exact this

set_option maxRecDepth 100000 in
/-- C7: a row's cohort race is overridden to "Hispanic" exactly when its
ethnicity, lower-cased and trimmed, equals "hispanic or latino"; otherwise
the race column is kept (title-cased).  In particular "Hispanicky" is not
reclassified while " Hispanic or Latino " is. -/
theorem claim_C7_hispanic_override_exact :
    (∀ r : Row, normEth r.derived_ethnicity = "hispanic or latino" →
      cohortRace r = "Hispanic") ∧
    (∀ r : Row, normEth r.derived_ethnicity ≠ "hispanic or latino" →
      cohortRace r = pyTitle r.derived_race) ∧
    cohortRace rowH = "Hispanic" ∧ cohortRace rowHk = "White" := by
  refine ⟨?_, ?_, ?_, ?_⟩
  · intro r h
    rw [cohortRace, overrideRace, if_pos h]
    decide
  · intro r h
    rw [cohortRace, overrideRace, if_neg h]
  · decide
  · decide

set_option maxRecDepth 100000 in
/-- C7 witness: the two concrete rows, via the general halves. -/
theorem claim_C7_hispanic_override_exact_witness :
    cohortRace rowH = "Hispanic" ∧ cohortRace rowHk = pyTitle "White" :=
  ⟨claim_C7_hispanic_override_exact.1 rowH (by decide),
   claim_C7_hispanic_override_exact.2.1 rowHk (by decide)⟩

/-- The grouped output depends only on the surviving processed rows. -/
lemma grouped_eq_of_surviving {rows1 rows2 : List Row}
    (h : (withIds 1 rows1).filterMap (fun p => processRow p.1 p.2) =
      (withIds 1 rows2).filterMap (fun p => processRow p.1 p.2)) :
    get_grouped_applicants rows1 = get_grouped_applicants rows2 := by
  simp only [get_grouped_applicants, h]

/-- C8: two surviving records whose normalized race and sex agree always land
in the same cohort of the grouped output. -/
theorem claim_C8_same_normalized_same_cohort
    (rows : List Row) (i1 i2 : ℕ) (r1 r2 : Row) (p1 p2 : PRow)
    (h1 : (i1, r1) ∈ withIds 1 rows) (h2 : (i2, r2) ∈ withIds 1 rows)
    (hp1 : processRow i1 r1 = some p1) (hp2 : processRow i2 r2 = some p2)
    (hrace : cohortRace r1 = cohortRace r2)
    (hsex : cohortSex r1 = cohortSex r2) :
    ∃ k ps, (k, ps) ∈ get_grouped_applicants rows ∧ p1 ∈ ps ∧ p2 ∈ ps := by
  have hkey : groupKey r1 = groupKey r2 := by
    rw [groupKey, groupKey, hrace, hsex]
  have hpg1 : p1.group = groupKey r1 := by
    rcases hq : pyFloat r1.debt_to_income_ratio with _ | q
    · rw [processRow, hq] at hp1
      simp at hp1
    · rw [processRow, hq] at hp1
      rw [← Option.some.inj hp1]
  have hpg2 : p2.group = groupKey r2 := by
    rcases hq : pyFloat r2.debt_to_income_ratio with _ | q
    · rw [processRow, hq] at hp2
      simp at hp2
    · rw [processRow, hq] at hp2
      rw [← Option.some.inj hp2]
  have hmem1 : p1 ∈ (withIds 1 rows).filterMap (fun p => processRow p.1 p.2) :=
    List.mem_filterMap.mpr ⟨(i1, r1), h1, hp1⟩
  have hmem2 : p2 ∈ (withIds 1 rows).filterMap (fun p => processRow p.1 p.2) :=
    List.mem_filterMap.mpr ⟨(i2, r2), h2, hp2⟩
  refine ⟨groupKey r1,
    ((withIds 1 rows).filterMap (fun p => processRow p.1 p.2)).filter
      (fun p => decide (p.group = groupKey r1)), ?_, ?_, ?_⟩
  · simp only [get_grouped_applicants]
    refine List.mem_map.mpr ⟨groupKey r1, ?_, rfl⟩
    refine (List.perm_insertionSort _ _).mem_iff.mpr ?_
    exact List.mem_dedup.mpr (List.mem_map.mpr ⟨p1, hmem1, hpg1⟩)
  · exact List.mem_filter.mpr ⟨hmem1, decide_eq_true hpg1⟩
  · exact List.mem_filter.mpr ⟨hmem2, decide_eq_true (by rw [hpg2, ← hkey])⟩

set_option maxRecDepth 100000 in
/-- C8 witness: "WHITE"/"male" and "white"/"MALE" land in the same cohort. -/
theorem claim_C8_same_normalized_same_cohort_witness :
    ∃ k ps, (k, ps) ∈ get_grouped_applicants [rowA, rowB] ∧
      (⟨1, "not provided", "White", "Male", 1, "White Male"⟩ : PRow) ∈ ps ∧
      (⟨2, "none given", "White", "Male", 2, "White Male"⟩ : PRow) ∈ ps :=
  claim_C8_same_normalized_same_cohort [rowA, rowB] 1 2 rowA rowB
    ⟨1, "not provided", "White", "Male", 1, "White Male"⟩
    ⟨2, "none given", "White", "Male", 2, "White Male"⟩
    (by decide) (by decide) (by decide) (by decide) (by decide) (by decide)

/-- Id synthesis distributes over appending, continuing the numbering after
the first block. -/
lemma withIds_append : ∀ (rows1 rows2 : List Row) (n : ℕ),
    withIds n (rows1 ++ rows2) =
      withIds n rows1 ++ withIds (n + rows1.length) rows2 := by
  intro rows1
  induction rows1 with
  | nil => intro rows2 n; simp [withIds]
  | cons r rest ih =>
    intro rows2 n
    simp only [List.cons_append, withIds, List.length_cons, List.append_eq]
    have hn : n + 1 + rest.length = n + (rest.length + 1) := by omega
    rw [ih rows2 (n + 1), hn]

/-- A block of rows that are all dropped contributes nothing to the
processed list, whatever ids it is assigned. -/
lemma withIds_dropped_filterMap {extra : List Row}
    (hextra : ∀ r ∈ extra, pyFloat r.debt_to_income_ratio = none) :
    ∀ n : ℕ,
    (withIds n extra).filterMap (fun p => processRow p.1 p.2) = [] := by
  induction extra with
  | nil => intro n; rfl
  | cons r rest ih =>
    intro n
    have hr : processRow n r = none := by
      rw [processRow, hextra r (by simp)]
    simp only [withIds, List.filterMap_cons, hr]
    exact ih (fun b hb => hextra b (by simp [hb])) (n + 1)

/-- C9 amended: rows with non-coercible risk values are silently dropped and
no dropped-row count accompanies the returned cohort mapping; appending
dropped rows to an input leaves the output unchanged, so the caller cannot
recover the count from the output.  (A dropped row occurring before a
survivor does shift the survivor's synthesized id, so only trailing drops
are wholly invisible.) -/
theorem claim_C9_amended_trailing_dropped_invisible
    (rows extra : List Row)
    (hextra : ∀ r ∈ extra, pyFloat r.debt_to_income_ratio = none) :
    get_grouped_applicants (rows ++ extra) = get_grouped_applicants rows := by
  refine grouped_eq_of_surviving ?_
  rw [withIds_append, List.filterMap_append,
    withIds_dropped_filterMap hextra (1 + rows.length), List.append_nil]

set_option maxRecDepth 100000 in
/-- C9 counterexample: two inputs with different dropped-row counts produce
identical outputs — the trailing dropped row is assigned id 2 and then
removed, leaving the surviving row with id 1 in both runs — so no function
of the returned cohort mapping equals the dropped count: the count is not an
observable output of the Normalizer. -/
theorem claim_C9_dropped_count_not_exposed_counterexample :
    get_grouped_applicants [rowA, rowDropped] =
      get_grouped_applicants [rowA] ∧
    droppedCount [rowA] = 0 ∧ droppedCount [rowA, rowDropped] = 1 := by
  refine ⟨grouped_eq_of_surviving (by decide), by decide, by decide⟩

set_option maxRecDepth 100000 in
/-- C9 amended witness: appending the dropped row to the surviving one
leaves the output unchanged. -/
theorem claim_C9_amended_trailing_dropped_invisible_witness :
    get_grouped_applicants ([rowA] ++ [rowDropped]) =
      get_grouped_applicants [rowA] :=
  claim_C9_amended_trailing_dropped_invisible [rowA] [rowDropped]
    (by decide)

set_option maxRecDepth 100000 in
/-- A dropped row occurring before a survivor is partially observable: the
survivor's synthesized id shifts (here to 2), so the outputs differ — the
invisibility of dropped rows holds for trailing drops only, and the general
removal-invariance does not hold of the program. -/
lemma dropped_before_survivor_shifts_ids :
    get_grouped_applicants [rowDropped, rowA] ≠
      get_grouped_applicants [rowA] := by decide
